import Mathlib

/-!
Verification of the Sauvie Island duck-blind harvest pipeline
(`parse_blinds.py`): a shallow embedding of the extraction, aggregation and
ranking code, together with theorems settling the specification claims.

Strings from PDF pages and table cells are modelled as Lean `String`s
(restricted to the ASCII fragment actually exercised by the documents);
Python integers are `Int`, Python floats are modelled as `ℚ`.
-/

namespace Duck

/-- ASCII whitespace, as treated by Python's `str.split()`, `str.strip()`
and `int()`. -/
def pyIsSpace (c : Char) : Bool :=
  c = ' ' || c = '\t' || c = '\n' || c = '\r' || c = '\x0b' || c = '\x0c'

/-- Python `str.strip()` with no argument: drop whitespace from both ends. -/
def pyStrip (s : String) : String :=
  String.mk (((s.toList.dropWhile pyIsSpace).reverse.dropWhile pyIsSpace).reverse)

/-- ASCII digit test (`'0'` to `'9'`). -/
def isDigitChar (c : Char) : Bool :=
  48 ≤ c.toNat && c.toNat ≤ 57

/-- After an initial digit, Python's integer literal grammar allows further
digits with single underscores strictly between digits. -/
def pyDigitsRest : List Char → Bool
  | [] => true
  | c :: rest =>
    if c = '_' then
      match rest with
      | [] => false
      | d :: rest2 => isDigitChar d && pyDigitsRest rest2
    else isDigitChar c && pyDigitsRest rest

/-- A nonempty digit string (underscore separators allowed between digits). -/
def pyDigitsOk : List Char → Bool
  | [] => false
  | c :: rest => isDigitChar c && pyDigitsRest rest

/-- Decimal value of a digit string (underscores already removed). -/
def digitsToNat (ds : List Char) : Nat :=
  ds.foldl (fun a c => a * 10 + (c.toNat - 48)) 0

/-- Value of the digit part of a Python integer literal, or `none` if the
character list is not a valid unsigned decimal literal. -/
def pyDigitsVal (ds : List Char) : Option Nat :=
  if pyDigitsOk ds then some (digitsToNat (ds.filter (fun c => !(c == '_')))) else none

/-- Optional sign followed by digits. -/
def pySignedVal : List Char → Option Int
  | [] => none
  | c :: rest =>
    if c = '-' then (pyDigitsVal rest).map (fun v => -(Int.ofNat v))
    else if c = '+' then (pyDigitsVal rest).map (fun v => Int.ofNat v)
    else (pyDigitsVal (c :: rest)).map (fun v => Int.ofNat v)

/-- Python `int(s)` on a decimal string: optional surrounding whitespace,
optional sign, nonempty digits (with underscore separators); any other
string raises `ValueError`, modelled as `none`. -/
def pyParseInt (s : String) : Option Int :=
  pySignedVal (((s.toList.dropWhile pyIsSpace).reverse.dropWhile pyIsSpace).reverse)

/-- Worker for `pySplitWs`: `acc` holds the current token reversed. -/
def wsTokens : List Char → List Char → List (List Char)
  | [], acc => if acc.isEmpty then [] else [acc.reverse]
  | c :: rest, acc =>
    if pyIsSpace c then
      if acc.isEmpty then wsTokens rest [] else acc.reverse :: wsTokens rest []
    else wsTokens rest (c :: acc)

/-- Python `s.split()`: split on whitespace runs, discarding empty tokens. -/
def pySplitWs (s : String) : List String :=
  (wsTokens s.toList []).map String.mk

/-- Worker for `pySplitLines`: `acc` holds the current line reversed. -/
def nlSplit : List Char → List Char → List (List Char)
  | [], acc => [acc.reverse]
  | c :: rest, acc =>
    if c = '\n' then acc.reverse :: nlSplit rest [] else nlSplit rest (c :: acc)

/-- Python `s.split("\n")`: split at every newline, keeping empty pieces. -/
def pySplitLines (s : String) : List String :=
  (nlSplit s.toList []).map String.mk

/-- Does `pat` occur at the head of `cs`? -/
def startsWithChars : List Char → List Char → Bool
  | [], _ => true
  | _ :: _, [] => false
  | p :: ps, c :: cs => p == c && startsWithChars ps cs

/-- Index of the first occurrence of `pat` in `cs`, if any. -/
def findSub (pat : List Char) : List Char → Option Nat
  | [] => if pat.isEmpty then some 0 else none
  | c :: rest =>
    if startsWithChars pat (c :: rest) then some 0
    else (findSub pat rest).map (· + 1)

/-- `re.search(a + ".*?" + b, text, re.DOTALL).group(0)`: the span from the
first occurrence of marker `a` to the end of the earliest following
occurrence of marker `b`. -/
def searchSpan (a b text : String) : Option String :=
  match findSub a.toList text.toList with
  | none => none
  | some i =>
    let afterA := text.toList.drop (i + a.toList.length)
    match findSub b.toList afterA with
    | some j =>
      some (String.mk ((text.toList.drop i).take (a.toList.length + j + b.toList.length)))
    | none => none

/-- One extracted record: `(side, name, hunters, ducks)` in the source. -/
structure HarvestTuple where
  side : String
  name : String
  hunters : Int
  ducks : Int
deriving DecidableEq, Repr

/-- The header/total labels excluded as entity names in `parse_page1_summary`. -/
def summaryExcluded : List String :=
  ["EASTSIDE", "EASTSIDE TOTALS", "WESTSIDE", "WESTSIDE TOTALS"]

/-- Body of the per-line loop of `parse_section` in `parse_page1_summary`,
expressed on the whitespace-split token list of the line. -/
def parseLineTokens (side : String) (parts : List String) : Option HarvestTuple :=
  if parts.length < 6 then none
  else
    match pyParseInt (parts.getD (parts.length - 5) ""),
          pyParseInt (parts.getD (parts.length - 4) "") with
    | some hunters, some ducks =>
      if String.intercalate " " (parts.take (parts.length - 5)) = "" ∨
         String.intercalate " " (parts.take (parts.length - 5)) ∈ summaryExcluded then none
      else some ⟨side, String.intercalate " " (parts.take (parts.length - 5)), hunters, ducks⟩
    | _, _ => none

/-- `parse_section` of `parse_page1_summary`. -/
def parseSection (block side : String) : List HarvestTuple :=
  (pySplitLines block).filterMap (fun line => parseLineTokens side (pySplitWs line))

/-- `parse_page1_summary`: the two marker-delimited regions of the page-1
text, eastside first. -/
def parse_page1_summary (text : String) : List HarvestTuple :=
  (match searchSpan "EASTSIDE HUNTERS" "EASTSIDE TOTALS" text with
   | some blk => parseSection blk "Eastside"
   | none => []) ++
  (match searchSpan "WESTSIDE HUNTERS" "WESTSIDE TOTALS" text with
   | some blk => parseSection blk "Westside"
   | none => [])

/-- `UNIT_COL0_MAP`: vertical-text signatures of column 0 to unit names. -/
def UNIT_COL0_MAP : List (String × String) :=
  [("t\ni\nn\nU\nn\no\ns\nn\nh\no\nJ", "Johnson"),
   ("k\nc\na\nt\nr i\nt n\ne U\nc\na\nR", "Racetrack"),
   ("t\ni\nn\nU\nt\nn\nu\nH", "Hunt"),
   ("t\ni\nn\nU\nn\ne\nh\nd\nu\nM", "Mudhen"),
   ("d\nn\na t\nl s i n\nI U\nk\na\nO", "Oak Island"),
   ("t\ni\nn\nU\ne\nk\na\nL\nd\nu\nM", "Mud Lake"),
   ("t\ni\nn\nU\ne\nk\na\nL\nl\na\ne\nS", "Seal"),
   ("t\ni\nn\nU\nn\na\nm\nl\ne\ne\nt\nS", "Steelman"),
   ("t\nn\ni\no\nP\nt\nn i n\na U\nm\nl\no\nH", "Holman Point")]

/-- `UNIT_COL0_MAP.get(s)`: exact-match lookup. -/
def unitLookup (s : String) : Option String :=
  (UNIT_COL0_MAP.find? (fun p => p.1 == s)).map (·.2)

/-- A table cell as returned by `extract_tables`: a string or null. -/
abbrev Cell := Option String

/-- A table row: a list of cells. -/
abbrev Row := List Cell

/-- A table: a list of rows. -/
abbrev Table := List Row

/-- The `current_unit` update of `parse_detail_tables`: a non-null cell with
non-whitespace content containing an embedded newline replaces the unit by
the (possibly failing) signature lookup; any other cell leaves it unchanged. -/
def stepUnit (u : Option String) (c : Cell) : Option String :=
  match c with
  | none => u
  | some s =>
    if ¬ s = "" ∧ ¬ pyStrip s = "" ∧ '\n' ∈ s.toList then unitLookup (pyStrip s)
    else u

/-- `int(cell or 0)` on a cell already known non-null in the source: the
empty string counts as zero, anything else goes through `int(...)`. Used
only to state theorems; `processRow` spells the cases out as the code does. -/
def cellToInt (c : Cell) : Option Int :=
  match c with
  | none => none
  | some s => if s = "" then some 0 else pyParseInt s

/-- Body of the per-row loop of `parse_detail_tables`: from the current
unit and a row, the new current unit and the emitted `(name, hunters,
ducks)` triple, if any. -/
def processRow (u : Option String) (row : Row) :
    Option String × Option (String × Int × Int) :=
  if row.length < 6 then (u, none)
  else
    match row.getD 1 none with
    | none => (u, none)
    | some bc =>
      if bc = "Blind" then (u, none)
      else
        match stepUnit u (row.getD 0 none) with
        | none => (none, none)
        | some unit =>
          match row.getD 2 none, row.getD 3 none with
          | some hs, some ds =>
            match (if hs = "" then some (0 : Int) else pyParseInt hs),
                  (if ds = "" then some (0 : Int) else pyParseInt ds) with
            | some hv, some dv => (some unit, some (unit ++ " #" ++ pyStrip bc, hv, dv))
            | _, _ => (some unit, none)
          | _, _ => (some unit, none)

/-- Row loop over one table, threading the current unit. -/
def processRows (u : Option String) : List Row → Option String × List (String × Int × Int)
  | [] => (u, [])
  | r :: rs =>
    let p := processRow u r
    let q := processRows p.1 rs
    (q.1, p.2.toList ++ q.2)

/-- Table loop over one page, threading the current unit across tables. -/
def processTables (u : Option String) : List Table → Option String × List (String × Int × Int)
  | [] => (u, [])
  | t :: ts =>
    let p := processRows u t
    let q := processTables p.1 ts
    (q.1, p.2 ++ q.2)

/-- A parsed PDF document as the code consumes it: the extracted text of
page 1, and the extracted tables of pages 2 and 3. -/
structure PdfDoc where
  page1 : String
  page2Tables : List Table
  page3Tables : List Table

/-- `parse_detail_tables`: page 2 is Eastside, page 3 is Westside; the
current unit is reset at each page start. -/
def parse_detail_tables (d : PdfDoc) : List HarvestTuple :=
  ((processTables none d.page2Tables).2.map (fun r => ⟨"Eastside", r.1, r.2.1, r.2.2⟩)) ++
  ((processTables none d.page3Tables).2.map (fun r => ⟨"Westside", r.1, r.2.1, r.2.2⟩))

/-- `parse_one_pdf`: summary tuples followed by detail tuples. -/
def parse_one_pdf (d : PdfDoc) : List HarvestTuple :=
  parse_page1_summary d.page1 ++ parse_detail_tables d

/-- `(side, name)`: the dictionary key of `by_blind` in `main`. -/
abbrev EntityKey := String × String

/-- One daily bucket: `{"hunters": int, "ducks": int}`. -/
structure DayTotals where
  hunters : Int
  ducks : Int
deriving DecidableEq, Repr

/-- One `by_blind` value: running totals plus the per-date buckets, the
latter as an insertion-ordered association list (a Python dict). -/
structure AggRec where
  totHunters : Int
  totDucks : Int
  daily : List (String × DayTotals)
deriving DecidableEq, Repr

/-- The fresh record `setdefault` installs for an unseen key. -/
def emptyAgg : AggRec := ⟨0, 0, []⟩

/-- Association-list lookup (Python `dict.__getitem__` / `get`). -/
def alookup {κ α : Type} [DecidableEq κ] : List (κ × α) → κ → Option α
  | [], _ => none
  | p :: l, k => if p.1 = k then some p.2 else alookup l k

/-- `setdefault(k, d)` followed by an in-place update `f`: update the entry
in place if the key is present, otherwise append `(k, f d)` at the end
(dict insertion order). -/
def aupd {κ α : Type} [DecidableEq κ] : List (κ × α) → κ → (α → α) → α → List (κ × α)
  | [], k, f, d => [(k, f d)]
  | p :: rest, k, f, d =>
    if p.1 = k then (p.1, f p.2) :: rest else p :: aupd rest k f d

/-- Add one tuple's counts into a daily bucket. -/
def bumpDay (h d : Int) (v : DayTotals) : DayTotals := ⟨v.hunters + h, v.ducks + d⟩

/-- Fold one tuple of a document dated `dt` into a record: add to totals and
to the (created-if-absent) bucket for `dt`. -/
def bumpRec (dt : String) (h d : Int) (r : AggRec) : AggRec :=
  ⟨r.totHunters + h, r.totDucks + d, aupd r.daily dt (bumpDay h d) ⟨0, 0⟩⟩

/-- One dated contribution: `(date_label, tuple)`. -/
abbrev Contrib := String × HarvestTuple

/-- The dictionary key a contribution is filed under. -/
def keyOf (c : Contrib) : EntityKey := (c.2.side, c.2.name)

/-- `bumpRec` applied to a contribution. -/
def bumpC (c : Contrib) (r : AggRec) : AggRec := bumpRec c.1 c.2.hunters c.2.ducks r

/-- The `by_blind` dictionary as an insertion-ordered association list. -/
abbrev AggState := List (EntityKey × AggRec)

/-- The body of the aggregation loop of `main` for one tuple. -/
def aggStep (s : AggState) (c : Contrib) : AggState := aupd s (keyOf c) (bumpC c) emptyAgg

/-- Aggregating a whole run: fold all dated tuples into an empty dictionary. -/
def aggregate (L : List Contrib) : AggState := L.foldl aggStep []

/-- Map union combining values of shared keys with `comb` ("union with
sum" once `comb` is addition); entries of `s` first, then the entries of
`t` whose keys are new. Modelled from the spec's merge operation for the
batch-independence property; it is not part of the source. -/
def amerge {κ α : Type} [DecidableEq κ] (comb : α → α → α) (s t : List (κ × α)) :
    List (κ × α) :=
  s.map (fun p => (p.1, match alookup t p.1 with | some v => comb p.2 v | none => p.2)) ++
  t.filter (fun p => (alookup s p.1).isNone)

/-- Union-with-sum of two daily maps. -/
def mergeDaily (x y : List (String × DayTotals)) : List (String × DayTotals) :=
  amerge (fun a b => ⟨a.hunters + b.hunters, a.ducks + b.ducks⟩) x y

/-- Union-with-sum of two aggregate records. -/
def mergeRec (a b : AggRec) : AggRec :=
  ⟨a.totHunters + b.totHunters, a.totDucks + b.totDucks, mergeDaily a.daily b.daily⟩

/-- Union-with-sum of two aggregation states. -/
def mergeStates (s t : AggState) : AggState := amerge mergeRec s t

/-- Merge a list of aggregation states. -/
def mergeAll (ss : List AggState) : AggState := ss.foldr mergeStates []

/-- Two records carry the same mapping: equal totals and, date by date,
equal daily buckets. -/
def recEquiv (a b : AggRec) : Prop :=
  a.totHunters = b.totHunters ∧ a.totDucks = b.totDucks ∧
  ∀ dt, alookup a.daily dt = alookup b.daily dt

/-- `recEquiv` lifted to optional records. -/
def optRecEquiv : Option AggRec → Option AggRec → Prop
  | none, none => True
  | some a, some b => recEquiv a b
  | _, _ => False

/-- Two aggregation states represent the same `EntityKey`-to-record
mapping. -/
def stateEquiv (s t : AggState) : Prop :=
  ∀ k, optRecEquiv (alookup s k) (alookup t k)

/-- Round half to even on `ℚ`, the rounding Python's `round` uses. -/
def rhe (x : ℚ) : ℤ :=
  let f := Int.floor x
  let r := x - f
  if r < 1/2 then f
  else if 1/2 < r then f + 1
  else if f % 2 = 0 then f else f + 1

/-- Python `round(x, 3)`, modelled on exact rationals. -/
def round3 (x : ℚ) : ℚ := (rhe (x * 1000) : ℚ) / 1000

/-- One entry of a record's `"daily"` output list. -/
structure DailyOut where
  date : String
  hunters : Int
  ducks : Int
  ducksPerHunter : ℚ
deriving DecidableEq, Repr

/-- One ranking record as built in `main` (`blind`, totals, rounded
efficiency, daily breakdown). -/
structure OutRec where
  blind : String
  totalHunters : Int
  totalDucks : Int
  ducksPerHunter : ℚ
  daily : List DailyOut
deriving DecidableEq, Repr

/-- Lexicographic strict order on character lists by code point: Python's
string `<`. -/
def charListLt : List Char → List Char → Bool
  | [], [] => false
  | [], _ :: _ => true
  | _ :: _, [] => false
  | a :: as, b :: bs =>
    if a.toNat < b.toNat then true
    else if b.toNat < a.toNat then false
    else charListLt as bs

/-- Python string `<`. -/
def strLtB (a b : String) : Bool := charListLt a.toList b.toList

/-- Insert a dated bucket into a date-ascending list, keeping it sorted. -/
def insertDateAsc (x : String × DayTotals) :
    List (String × DayTotals) → List (String × DayTotals)
  | [] => [x]
  | y :: t => if strLtB x.1 y.1 then x :: y :: t else y :: insertDateAsc x t

/-- `sorted(rec["daily"].keys())` with the associated buckets: the daily
association list in date-ascending order (stable insertion sort; Python's
sort is stable, and a stable sort's output is determined by the order, so
any stable sort models `list.sort`). -/
def sortDatesAsc (l : List (String × DayTotals)) : List (String × DayTotals) :=
  l.foldl (fun acc x => insertDateAsc x acc) []

/-- Building one ranking record in `main`: efficiency `ducks/hunters` with
the zero-hunter case defined as `0.0`, rounded to 3 decimals, at both the
aggregate and the daily granularity; daily entries date-ascending. -/
def buildRecord (name : String) (r : AggRec) : OutRec :=
  let th := r.totHunters
  let td := r.totDucks
  let dph : ℚ := if ¬ th = 0 then (td : ℚ) / (th : ℚ) else 0
  let daily := (sortDatesAsc r.daily).map (fun p =>
    let ddph : ℚ := if ¬ p.2.hunters = 0 then (p.2.ducks : ℚ) / (p.2.hunters : ℚ) else 0
    DailyOut.mk p.1 p.2.hunters p.2.ducks (round3 ddph))
  OutRec.mk name th td (round3 dph) daily

/-- Strictly greater in the sort key `(ducksPerHunter, blind)`. With
`reverse=True`, Python's `list.sort` places `a` before `b` exactly when
`keyGtB a b`, keeping the original order of equal keys. -/
def keyGtB (a b : OutRec) : Bool :=
  decide (b.ducksPerHunter < a.ducksPerHunter) ||
  (decide (a.ducksPerHunter = b.ducksPerHunter) && strLtB b.blind a.blind)

/-- Insert into a key-descending list, after any element of equal key. -/
def insertDesc (a : OutRec) : List OutRec → List OutRec
  | [] => [a]
  | b :: t => if keyGtB a b then a :: b :: t else b :: insertDesc a t

/-- `records.sort(key=lambda r: (r["ducksPerHunter"], r["blind"]),
reverse=True)`: stable descending sort on the key; modelled by stable
insertion sort, which agrees with any stable sort. -/
def pySortDesc (l : List OutRec) : List OutRec :=
  l.foldl (fun acc x => insertDesc x acc) []

/-- `is_summary` of `main`: the blind name does not contain `" #"`. -/
def is_summary (r : OutRec) : Bool :=
  (findSub " #".toList r.blind.toList).isNone

/-- The split-and-sort of `main` for one side: area-level (summary) records
and sub-unit records, each sorted descending. -/
def rankSide (rs : List OutRec) : List OutRec × List OutRec :=
  (pySortDesc (rs.filter (fun r => is_summary r)),
   pySortDesc (rs.filter (fun r => !(is_summary r))))

/-- A document whose only content is the single well-formed summary line of
the round-trip scenario, inside the eastside markers. -/
def docC7 : PdfDoc :=
  ⟨"EASTSIDE HUNTERS\nNorth Pond 12 34 5 6 2.83\nEASTSIDE TOTALS", [], []⟩

/-- A document whose summary line carries a negative hunter count. -/
def docNeg : PdfDoc :=
  ⟨"EASTSIDE HUNTERS\nNorth Pond -12 34 5 6 2.83\nEASTSIDE TOTALS", [], []⟩

/-- A six-cell detail row whose 3rd cell (hunter count) is null rather than
an empty string. -/
def nullCellRow : Row := [none, some "7", none, some "2", some "", some ""]

/-- Claim C8 (confirmed): for every document, the document parser returns
exactly the summary extractor's output followed by the detail extractor's
output, concatenated in that order with nothing deduplicated, reordered or
filtered. -/
theorem c8_parser_concatenation (d : PdfDoc) :
    parse_one_pdf d = parse_page1_summary d.page1 ++ parse_detail_tables d := rfl

/-- Claim C7 (confirmed): on a document containing exactly the well-formed
summary line `"North Pond 12 34 5 6 2.83"`, `parse_one_pdf` yields the
single tuple `(Eastside, "North Pond", 12, 34)`; and in general, on a line
whose tokens are `ws ++ [a, b, c, e, f]`, the 5th-from-last token `a`
parses as the hunter count, the 4th-from-last token `b` as the duck count,
and the tokens before the last five join into the entity name. -/
theorem c7_summary_roundtrip :
    parse_one_pdf docC7 = [⟨"Eastside", "North Pond", 12, 34⟩] ∧
    ∀ (side : String) (ws : List String) (a b c e f : String) (hv dv : Int),
      pyParseInt a = some hv → pyParseInt b = some dv →
      ¬ String.intercalate " " ws = "" →
      String.intercalate " " ws ∉ summaryExcluded →
      parseLineTokens side (ws ++ [a, b, c, e, f]) =
        some ⟨side, String.intercalate " " ws, hv, dv⟩ := by
  constructor
  · decide
  · intro side ws a b c e f hv dv ha hb hname hexcl
    have hws : ws ≠ [] := by
      intro h0
      subst h0
      exact hname rfl
    have hwslen : 0 < ws.length := List.length_pos.mpr hws
    have hlen : (ws ++ [a, b, c, e, f]).length = ws.length + 5 := by simp
    have h6 : ¬ (ws ++ [a, b, c, e, f]).length < 6 := by omega
    have e5 : (ws ++ [a, b, c, e, f]).getD ((ws ++ [a, b, c, e, f]).length - 5) "" = a := by
      rw [hlen]
      have h55 : ws.length + 5 - 5 = ws.length := by omega
      rw [h55, List.getD_append_right _ _ _ _ (le_refl ws.length)]
      simp
    have e4 : (ws ++ [a, b, c, e, f]).getD ((ws ++ [a, b, c, e, f]).length - 4) "" = b := by
      rw [hlen]
      have h44 : ws.length + 5 - 4 = ws.length + 1 := by omega
      rw [h44, List.getD_append_right _ _ _ _ (by omega)]
      simp
    have etake : (ws ++ [a, b, c, e, f]).take ((ws ++ [a, b, c, e, f]).length - 5) = ws := by
      rw [hlen]
      have h55 : ws.length + 5 - 5 = ws.length := by omega
      rw [h55, List.take_left]
    unfold parseLineTokens
    rw [if_neg h6, e5, e4, ha, hb, etake]
    simp only [Option.some.injEq]
    rw [if_neg]
    intro hor
    rcases hor with h0 | hmem
    · exact hname h0
    · exact hexcl hmem

/-- A cell that triggers the `current_unit` update in `parse_detail_tables`:
non-null, with non-whitespace content, containing an embedded newline. -/
def IsLabelCell (c : Cell) : Prop :=
  match c with
  | none => False
  | some s => ¬ s = "" ∧ ¬ pyStrip s = "" ∧ '\n' ∈ s.toList

instance (c : Cell) : Decidable (IsLabelCell c) := by
  cases c <;> simp only [IsLabelCell] <;> infer_instance

/-- A row that survives the early skips (length, null 2nd cell, header
label) and updates the current unit to a successfully resolved group. -/
def RowResolves (row : Row) : Prop :=
  ¬ row.length < 6 ∧ ¬ row.getD 1 none = none ∧ ¬ row.getD 1 none = some "Blind" ∧
  ¬ stepUnit none (row.getD 0 none) = none

instance (row : Row) : Decidable (RowResolves row) := by
  unfold RowResolves
  infer_instance

/-- A row that survives the early skips and carries a label-bearing cell
whose signature the resolver does not recognise. -/
def RowFails (row : Row) : Prop :=
  ¬ row.length < 6 ∧ ¬ row.getD 1 none = none ∧ ¬ row.getD 1 none = some "Blind" ∧
  IsLabelCell (row.getD 0 none) ∧ stepUnit none (row.getD 0 none) = none

instance (row : Row) : Decidable (RowFails row) := by
  unfold RowFails
  infer_instance

theorem stepUnit_label (u : Option String) (c : Cell) (h : IsLabelCell c) :
    stepUnit u c = stepUnit none c := by
  cases c with
  | none => exact absurd h id
  | some s =>
    simp only [IsLabelCell] at h
    simp only [stepUnit, if_pos h]

/-- Characterisation of one row step once the early skips are passed and
the effective unit resolves: the row emits exactly when both count cells
convert, with the empty string converting to zero. -/
theorem processRow_eq (u : Option String) (row : Row) (bc g : String)
    (hlen : ¬ row.length < 6) (hbc : row.getD 1 none = some bc)
    (hB : ¬ bc = "Blind") (hg : stepUnit u (row.getD 0 none) = some g) :
    processRow u row =
      (some g,
       match cellToInt (row.getD 2 none), cellToInt (row.getD 3 none) with
       | some hv, some dv => some (g ++ " #" ++ pyStrip bc, hv, dv)
       | _, _ => none) := by
  unfold processRow
  rw [if_neg hlen, hbc, hg]
  simp only [hB, if_neg, ite_false]
  cases h2 : row.getD 2 none with
  | none => simp [cellToInt]
  | some hs =>
    cases h3 : row.getD 3 none with
    | none => simp [cellToInt]
    | some ds =>
      by_cases hhs : hs = "" <;> by_cases hds : ds = "" <;>
        simp only [cellToInt, hhs, hds, if_pos, if_neg, ite_true, ite_false] <;>
        cases pyParseInt hs <;> cases pyParseInt ds <;> rfl

/-- If the unit in effect after the label-cell update is unset, nothing is
emitted. -/
theorem processRow_unset (u : Option String) (row : Row)
    (h : stepUnit u (row.getD 0 none) = none) : (processRow u row).2 = none := by
  unfold processRow
  by_cases hlen : row.length < 6
  · rw [if_pos hlen]
  · rw [if_neg hlen]
    cases hbc : row.getD 1 none with
    | none => rfl
    | some bc =>
      by_cases hB : bc = "Blind"
      · simp [hB]
      · simp only [hB, ite_false, h]

/-- A row that does not resolve a group keeps the unit unset and emits
nothing when processed with the unit unset. -/
theorem processRow_noResolve (row : Row) (h : ¬ RowResolves row) :
    processRow none row = (none, none) := by
  by_cases hlen : row.length < 6
  · unfold processRow
    rw [if_pos hlen]
  · cases hbc : row.getD 1 none with
    | none =>
      unfold processRow
      rw [if_neg hlen, hbc]
    | some bc =>
      by_cases hB : bc = "Blind"
      · unfold processRow
        rw [if_neg hlen, hbc]
        simp [hB]
      · have hstep : stepUnit none (row.getD 0 none) = none := by
          by_contra hne
          apply h
          refine ⟨hlen, ?_, ?_, hne⟩
          · rw [hbc]
            simp
          · rw [hbc]
            simp [hB]
        unfold processRow
        rw [if_neg hlen, hbc]
        simp only [hB, ite_false, hstep]

/-- A row whose label cell fails to resolve clears the unit and emits
nothing, whatever the unit was before. -/
theorem processRow_fails (u : Option String) (row : Row) (h : RowFails row) :
    processRow u row = (none, none) := by
  obtain ⟨hlen, hbc, hB, hlab, hstep⟩ := h
  cases hbc2 : row.getD 1 none with
  | none => exact absurd hbc2 hbc
  | some bc =>
    have hB2 : ¬ bc = "Blind" := fun hx => hB (by rw [hbc2, hx])
    have hstep2 : stepUnit u (row.getD 0 none) = none := by
      rw [stepUnit_label u _ hlab]
      exact hstep
    unfold processRow
    rw [if_neg hlen, hbc2]
    simp only [hB2, ite_false, hstep2]

/-- Before any resolving row, the walk stays unset and emits nothing. -/
theorem processRows_noResolve (rows : List Row) (h : ∀ r ∈ rows, ¬ RowResolves r) :
    processRows none rows = (none, []) := by
  induction rows with
  | nil => rfl
  | cons r rs ih =>
    have h1 := processRow_noResolve r (h r (by simp))
    have h2 := ih (fun x hx => h x (by simp [hx]))
    unfold processRows
    rw [h1]
    simp only []
    rw [h2]
    rfl

/-- Claim C6 (confirmed): the detail extractor never emits a tuple while the
current group is unset; every row before the first resolving group-label
cell yields no tuple; and after a label cell fails to resolve the group is
unset, so all following rows are skipped until a new label cell resolves. -/
theorem c6_group_gating :
    (∀ (u : Option String) (row : Row),
       stepUnit u (row.getD 0 none) = none → (processRow u row).2 = none) ∧
    (∀ rows : List Row, (∀ r ∈ rows, ¬ RowResolves r) →
       processRows none rows = (none, [])) ∧
    (∀ (u : Option String) (row : Row) (rows : List Row),
       RowFails row → (∀ r ∈ rows, ¬ RowResolves r) →
       (processRows u (row :: rows)).2 = []) := by
  refine ⟨processRow_unset, processRows_noResolve, ?_⟩
  intro u row rows hf hno
  have h1 := processRow_fails u row hf
  unfold processRows
  rw [h1]
  simp only []
  rw [processRows_noResolve rows hno]
  rfl

/-- Witness for C6 on the concrete page of the unresolvable-group scenario:
a well-formed data row before any resolvable label cell, and after a
failing one, emits nothing. -/
theorem c6_group_gating_witness :
    (processRow none [some "x\ny", some "9", some "1", some "1", some "", some ""]).2 = none ∧
    processRows none [[none, some "7", some "1", some "2", some "", some ""]] = (none, []) ∧
    (processRows none
      ([some "x\ny", some "9", some "1", some "1", some "", some ""] ::
       [[none, some "7", some "1", some "2", some "", some ""]])).2 = [] := by
  refine ⟨c6_group_gating.1 none _ (by decide), c6_group_gating.2.1 _ ?_, ?_⟩
  · intro r hr
    simp only [List.mem_singleton] at hr
    subst hr
    decide
  · refine c6_group_gating.2.2 none _ _ (by decide) ?_
    intro r hr
    simp only [List.mem_singleton] at hr
    subst hr
    decide

/-- Claim C5 (corrected): with the early skips passed and a group in
effect, a row emits exactly when both count cells convert under
`cellToInt`; the empty string converts to zero, a non-empty non-integer
cell makes the row skip, but a null (missing) cell also makes the row skip
instead of counting as zero. -/
theorem c5_count_cells (u : Option String) (row : Row) (bc g : String)
    (hlen : ¬ row.length < 6) (hbc : row.getD 1 none = some bc)
    (hB : ¬ bc = "Blind") (hg : stepUnit u (row.getD 0 none) = some g) :
    ((processRow u row).2 =
      match cellToInt (row.getD 2 none), cellToInt (row.getD 3 none) with
      | some hv, some dv => some (g ++ " #" ++ pyStrip bc, hv, dv)
      | _, _ => none) ∧
    cellToInt (some "") = some 0 ∧
    (∀ s : String, ¬ s = "" → cellToInt (some s) = pyParseInt s) ∧
    cellToInt none = none := by
  refine ⟨?_, rfl, ?_, rfl⟩
  · rw [processRow_eq u row bc g hlen hbc hB hg]
  · intro s hs
    simp only [cellToInt, hs, ite_false, if_neg]

/-- Witness for C5 at the null-cell row: the hypotheses hold concretely and
the row is skipped (the match yields `none` because the 3rd cell is null). -/
theorem c5_count_cells_witness :
    (processRow (some "Johnson") nullCellRow).2 =
      match cellToInt (nullCellRow.getD 2 none), cellToInt (nullCellRow.getD 3 none) with
      | some hv, some dv => some ("Johnson" ++ " #" ++ pyStrip "7", hv, dv)
      | _, _ => none :=
  (c5_count_cells (some "Johnson") nullCellRow "7" "Johnson"
    (by decide) (by decide) (by decide) (by decide)).1

/-- Counterexample for C5 as stated: the claim says a missing (null) 3rd
cell is treated as the value zero, which would emit `("Johnson #7", 0, 2)`
here; the code instead skips the row and emits nothing. -/
theorem c5_null_cell_counterexample :
    processRow (some "Johnson") nullCellRow = (some "Johnson", none) ∧
    nullCellRow.getD 2 none = none := by
  constructor <;> decide

theorem str_append_empty (s : String) : s ++ "" = s := by
  apply String.ext
  rw [String.data_append]
  exact List.append_nil _

/-- Claim C10 (confirmed): with the early skips passed, a group `g` in
effect and well-formed count cells, a row whose 2nd cell is the empty
string is not skipped — it emits a tuple named exactly `g ++ " #"` — and
the only 2nd-cell contents that skip the row are the null cell and the
literal header label `"Blind"`. -/
theorem c10_empty_blind_cell (u : Option String) (row : Row) (g : String) (hv dv : Int)
    (hlen : ¬ row.length < 6)
    (hg : stepUnit u (row.getD 0 none) = some g)
    (h2 : cellToInt (row.getD 2 none) = some hv)
    (h3 : cellToInt (row.getD 3 none) = some dv) :
    (row.getD 1 none = some "" → (processRow u row).2 = some (g ++ " #", hv, dv)) ∧
    ((processRow u row).2 = none ↔
      (row.getD 1 none = none ∨ row.getD 1 none = some "Blind")) := by
  constructor
  · intro hbc
    rw [processRow_eq u row "" g hlen hbc (by decide) hg]
    simp only [h2, h3]
    have hstrip : pyStrip "" = "" := rfl
    rw [hstrip, str_append_empty]
  · constructor
    · intro hnone
      cases hbc : row.getD 1 none with
      | none => exact Or.inl rfl
      | some bc =>
        by_cases hB : bc = "Blind"
        · subst hB
          exact Or.inr rfl
        · rw [processRow_eq u row bc g hlen hbc hB hg] at hnone
          simp only [h2, h3] at hnone
          cases hnone
    · intro hcase
      cases hcase with
      | inl hnone =>
        unfold processRow
        rw [if_neg hlen, hnone]
      | inr hblind =>
        unfold processRow
        rw [if_neg hlen, hblind]
        simp

/-- Witness for C10 on the detail-table scenario row with an empty 2nd
cell: the emitted tuple is `("Hunt #", 4, 2)` and the skip condition does
not hold. -/
theorem c10_empty_blind_cell_witness :
    (processRow (some "Hunt") [some "", some "", some "4", some "2", some "", some ""]).2 =
      some ("Hunt" ++ " #", 4, 2) ∧
    ¬ ((processRow (some "Hunt")
        [some "", some "", some "4", some "2", some "", some ""]).2 = none) := by
  have h := c10_empty_blind_cell (some "Hunt")
    [some "", some "", some "4", some "2", some "", some ""] "Hunt" 4 2
    (by decide) (by decide) (by decide) (by decide)
  refine ⟨h.1 (by decide), ?_⟩
  intro hn
  rcases h.2.mp hn with hx | hx <;> exact absurd hx (by decide)

/-- The `totals == sum of daily buckets` invariant of one record, for both
counters. -/
def recInv (r : AggRec) : Prop :=
  r.totHunters = (r.daily.map (fun p => p.2.hunters)).sum ∧
  r.totDucks = (r.daily.map (fun p => p.2.ducks)).sum

instance (r : AggRec) : Decidable (recInv r) := by
  unfold recInv
  infer_instance

theorem aupd_forall {κ α : Type} [DecidableEq κ] (P : α → Prop)
    (l : List (κ × α)) (k : κ) (f : α → α) (d : α)
    (hl : ∀ p ∈ l, P p.2) (hf : ∀ a, P a → P (f a)) (hd : P d) :
    ∀ p ∈ aupd l k f d, P p.2 := by
  induction l with
  | nil =>
    intro p hp
    simp only [aupd, List.mem_singleton] at hp
    subst hp
    exact hf d hd
  | cons p0 rest ih =>
    intro p hp
    simp only [aupd] at hp
    by_cases hk : p0.1 = k
    · rw [if_pos hk] at hp
      rcases List.mem_cons.mp hp with h1 | h1
      · subst h1
        exact hf p0.2 (hl p0 (by simp))
      · exact hl p (by simp [h1])
    · rw [if_neg hk] at hp
      rcases List.mem_cons.mp hp with h1 | h1
      · subst h1
        exact hl p (by simp)
      · exact ih (fun q hq => hl q (by simp [hq])) p h1

theorem daily_bump_sum_h (l : List (String × DayTotals)) (dt : String) (h d : Int) :
    ((aupd l dt (bumpDay h d) ⟨0, 0⟩).map (fun p => p.2.hunters)).sum =
      (l.map (fun p => p.2.hunters)).sum + h := by
  induction l with
  | nil => simp [aupd, bumpDay]
  | cons p rest ih =>
    by_cases hk : p.1 = dt
    · simp only [aupd, if_pos hk, List.map_cons, List.sum_cons, bumpDay]
      ring
    · simp only [aupd, if_neg hk, List.map_cons, List.sum_cons, ih]
      ring

theorem daily_bump_sum_d (l : List (String × DayTotals)) (dt : String) (h d : Int) :
    ((aupd l dt (bumpDay h d) ⟨0, 0⟩).map (fun p => p.2.ducks)).sum =
      (l.map (fun p => p.2.ducks)).sum + d := by
  induction l with
  | nil => simp [aupd, bumpDay]
  | cons p rest ih =>
    by_cases hk : p.1 = dt
    · simp only [aupd, if_pos hk, List.map_cons, List.sum_cons, bumpDay]
      ring
    · simp only [aupd, if_neg hk, List.map_cons, List.sum_cons, ih]
      ring

theorem bumpRec_recInv (dt : String) (h d : Int) (r : AggRec) (hr : recInv r) :
    recInv (bumpRec dt h d r) := by
  obtain ⟨h1, h2⟩ := hr
  unfold recInv
  refine ⟨?_, ?_⟩ <;> simp only [bumpRec]
  · rw [daily_bump_sum_h, h1]
  · rw [daily_bump_sum_d, h2]

theorem aggregate_inv (L : List Contrib) :
    ∀ s : AggState, (∀ p ∈ s, recInv p.2) → ∀ p ∈ L.foldl aggStep s, recInv p.2 := by
  induction L with
  | nil => exact fun s hs => hs
  | cons c L ih =>
    intro s hs
    refine ih (aggStep s c) ?_
    exact aupd_forall recInv s (keyOf c) (bumpC c) emptyAgg hs
      (fun a ha => bumpRec_recInv c.1 c.2.hunters c.2.ducks a ha) ⟨rfl, rfl⟩

/-- Claim C2 (confirmed): after folding any prefix of the dated-tuple
sequence, every aggregate record in the dictionary has totals equal to the
sum of its daily buckets, for hunters and for ducks. -/
theorem c2_totals_invariant (L : List Contrib) (n : Nat) :
    ∀ p ∈ aggregate (L.take n), recInv p.2 :=
  aggregate_inv (L.take n) [] (by simp)

/-- Witness for C2 on the two-document scenario, after the first step. -/
theorem c2_totals_invariant_witness :
    recInv ((("Eastside", "North Pond"),
      AggRec.mk 10 5 [("2025-12-01", ⟨10, 5⟩)]) :  EntityKey × AggRec).2 :=
  c2_totals_invariant
    [("2025-12-01", ⟨"Eastside", "North Pond", 10, 5⟩),
     ("2025-12-02", ⟨"Eastside", "North Pond", 10, 5⟩)] 1
    (("Eastside", "North Pond"), AggRec.mk 10 5 [("2025-12-01", ⟨10, 5⟩)])
    (by decide)

theorem rhe_intCast (n : ℤ) : rhe (n : ℚ) = n := by
  simp only [rhe, Int.floor_intCast, sub_self]
  norm_num

theorem round3_zero : round3 0 = 0 := by
  have h0 : ((0 : ℚ) * 1000) = ((0 : ℤ) : ℚ) := by norm_num
  rw [round3, h0, rhe_intCast]
  norm_num

/-- Claim C3 (confirmed): at both granularities the efficiency of a record
with zero participants is exactly `0`, and every stored efficiency is the
3-decimal rounding of the raw ratio (the stored, rounded field is the one
the ranking key and the outputs read). -/
theorem c3_zero_efficiency (name : String) (r : AggRec) :
    (r.totHunters = 0 → (buildRecord name r).ducksPerHunter = 0) ∧
    (buildRecord name r).ducksPerHunter =
      round3 (if ¬ r.totHunters = 0 then (r.totDucks : ℚ) / (r.totHunters : ℚ) else 0) ∧
    ∀ d ∈ (buildRecord name r).daily,
      (d.hunters = 0 → d.ducksPerHunter = 0) ∧
      d.ducksPerHunter =
        round3 (if ¬ d.hunters = 0 then (d.ducks : ℚ) / (d.hunters : ℚ) else 0) := by
  refine ⟨?_, rfl, ?_⟩
  · intro h0
    show round3 (if ¬ r.totHunters = 0 then (r.totDucks : ℚ) / (r.totHunters : ℚ) else 0) = 0
    rw [h0, if_neg (fun hx => hx rfl)]
    exact round3_zero
  · intro d hd
    simp only [buildRecord, List.mem_map] at hd
    obtain ⟨p, _, hp⟩ := hd
    subst hp
    constructor
    · intro h0
      have h0' : p.2.hunters = 0 := h0
      show round3 (if ¬ p.2.hunters = 0 then (p.2.ducks : ℚ) / (p.2.hunters : ℚ) else 0) = 0
      rw [h0', if_neg (fun hx => hx rfl)]
      exact round3_zero
    · rfl

/-- Witness for C3 at a record whose totals and single daily bucket both
have zero hunters. -/
theorem c3_zero_efficiency_witness :
    (buildRecord "x" (AggRec.mk 0 3 [("2025-12-01", ⟨0, 3⟩)])).ducksPerHunter = 0 ∧
    (DailyOut.mk "2025-12-01" 0 3 (round3 (if ¬ (0 : Int) = 0 then ((3 : Int) : ℚ) / ((0 : Int) : ℚ) else 0))).ducksPerHunter = 0 := by
  constructor
  · exact (c3_zero_efficiency "x" (AggRec.mk 0 3 [("2025-12-01", ⟨0, 3⟩)])).1 rfl
  · refine ((c3_zero_efficiency "x" (AggRec.mk 0 3 [("2025-12-01", ⟨0, 3⟩)])).2.2
      (DailyOut.mk "2025-12-01" 0 3
        (round3 (if ¬ (0 : Int) = 0 then ((3 : Int) : ℚ) / ((0 : Int) : ℚ) else 0))) ?_).1 rfl
    simp [buildRecord, sortDatesAsc, insertDateAsc]

theorem strippedChars (s : String) :
    ∀ c ∈ ((s.toList.dropWhile pyIsSpace).reverse.dropWhile pyIsSpace).reverse,
      c ∈ s.toList := by
  intro c hc
  have h1 := List.mem_reverse.mp hc
  have h2 := (List.dropWhile_sublist pyIsSpace).subset h1
  have h3 := List.mem_reverse.mp h2
  exact (List.dropWhile_sublist pyIsSpace).subset h3

theorem pyParseInt_nonneg (s : String) (n : Int) (hminus : '-' ∉ s.toList)
    (h : pyParseInt s = some n) : 0 ≤ n := by
  unfold pyParseInt at h
  cases hcs : ((s.toList.dropWhile pyIsSpace).reverse.dropWhile pyIsSpace).reverse with
  | nil =>
    rw [hcs] at h
    cases h
  | cons c rest =>
    rw [hcs] at h
    have hcmem : c ∈ s.toList := strippedChars s c (by rw [hcs]; simp)
    have hcneq : ¬ c = '-' := fun he => hminus (he ▸ hcmem)
    simp only [pySignedVal] at h
    rw [if_neg hcneq] at h
    by_cases hplus : c = '+'
    · rw [if_pos hplus] at h
      cases hv : pyDigitsVal rest with
      | none => rw [hv] at h; cases h
      | some v =>
        rw [hv, Option.map_some'] at h
        injection h with h2
        subst h2
        exact Int.ofNat_nonneg v
    · rw [if_neg hplus] at h
      cases hv : pyDigitsVal (c :: rest) with
      | none => rw [hv] at h; cases h
      | some v =>
        rw [hv, Option.map_some'] at h
        injection h with h2
        subst h2
        exact Int.ofNat_nonneg v

/-- A tuple emitted for a summary line comes from exactly the 5th-from-last
and 4th-from-last tokens of that line. -/
theorem parseLineTokens_fields (side : String) (parts : List String) (t : HarvestTuple)
    (h : parseLineTokens side parts = some t) :
    ¬ parts.length < 6 ∧
    pyParseInt (parts.getD (parts.length - 5) "") = some t.hunters ∧
    pyParseInt (parts.getD (parts.length - 4) "") = some t.ducks := by
  unfold parseLineTokens at h
  by_cases hlen : parts.length < 6
  · rw [if_pos hlen] at h
    cases h
  · rw [if_neg hlen] at h
    cases h5 : pyParseInt (parts.getD (parts.length - 5) "") with
    | none =>
      rw [h5] at h
      cases h
    | some hv =>
      cases h4 : pyParseInt (parts.getD (parts.length - 4) "") with
      | none =>
        rw [h5, h4] at h
        cases h
      | some dv =>
        rw [h5, h4] at h
        have h' : (if String.intercalate " " (parts.take (parts.length - 5)) = "" ∨
              String.intercalate " " (parts.take (parts.length - 5)) ∈ summaryExcluded then none
            else some (⟨side, String.intercalate " " (parts.take (parts.length - 5)),
              hv, dv⟩ : HarvestTuple)) = some t := h
        by_cases hcond : (String.intercalate " " (parts.take (parts.length - 5)) = "" ∨
            String.intercalate " " (parts.take (parts.length - 5)) ∈ summaryExcluded)
        · rw [if_pos hcond] at h'
          cases h'
        · rw [if_neg hcond] at h'
          injection h' with h2
          subst h2
          exact ⟨hlen, rfl, rfl⟩

/-- The count fields of one summary line carry no minus sign: whenever the
line splits into at least 6 tokens — the only case in which the parser
reads it — its 5th-from-last and 4th-from-last tokens (the participant and
yield count fields) contain no `'-'`. -/
def lineCountFieldsOk (line : String) : Prop :=
  ¬ (pySplitWs line).length < 6 →
    '-' ∉ ((pySplitWs line).getD ((pySplitWs line).length - 5) "").toList ∧
    '-' ∉ ((pySplitWs line).getD ((pySplitWs line).length - 4) "").toList

instance (line : String) : Decidable (lineCountFieldsOk line) := by
  unfold lineCountFieldsOk
  infer_instance

/-- Every line of an extracted summary region (when it exists) has
minus-free count fields. -/
def blockCountFieldsOk : Option String → Prop
  | none => True
  | some blk => ∀ line ∈ pySplitLines blk, lineCountFieldsOk line

instance (ob : Option String) : Decidable (blockCountFieldsOk ob) := by
  cases ob <;> simp only [blockCountFieldsOk] <;> infer_instance

/-- A null cell trivially carries no minus sign; a string cell must not
contain `'-'`. -/
def cellNoMinus : Cell → Prop
  | none => True
  | some s => '-' ∉ s.toList

instance (c : Cell) : Decidable (cellNoMinus c) := by
  cases c <;> simp only [cellNoMinus] <;> infer_instance

theorem cellNoMinus_spec {c : Cell} (h : cellNoMinus c) :
    ∀ s : String, c = some s → '-' ∉ s.toList := by
  intro s hs
  rw [hs] at h
  exact h

/-- The count fields of one detail row — its 3rd and 4th cells, the
participant and yield columns — carry no minus sign. -/
def rowCountCellsOk (row : Row) : Prop :=
  cellNoMinus (row.getD 2 none) ∧ cellNoMinus (row.getD 3 none)

instance (row : Row) : Decidable (rowCountCellsOk row) := by
  unfold rowCountCellsOk
  infer_instance

/-- All count fields of a document carry no minus sign: the count tokens of
the summary-region lines, and the count cells of the detail-table rows.
Other text — names, headers, dates — may contain `'-'` freely. -/
def countFieldsNoMinus (d : PdfDoc) : Prop :=
  blockCountFieldsOk (searchSpan "EASTSIDE HUNTERS" "EASTSIDE TOTALS" d.page1) ∧
  blockCountFieldsOk (searchSpan "WESTSIDE HUNTERS" "WESTSIDE TOTALS" d.page1) ∧
  ∀ tbl ∈ d.page2Tables ++ d.page3Tables, ∀ row ∈ tbl, rowCountCellsOk row

instance (d : PdfDoc) : Decidable (countFieldsNoMinus d) := by
  unfold countFieldsNoMinus
  infer_instance

theorem parseSection_nonneg (blk side : String)
    (hm : ∀ line ∈ pySplitLines blk, lineCountFieldsOk line) :
    ∀ t ∈ parseSection blk side, 0 ≤ t.hunters ∧ 0 ≤ t.ducks := by
  intro t ht
  simp only [parseSection, List.mem_filterMap] at ht
  obtain ⟨line, hline, hparse⟩ := ht
  obtain ⟨hlen, hpa, hpb⟩ := parseLineTokens_fields side _ t hparse
  obtain ⟨hm5, hm4⟩ := hm line hline hlen
  exact ⟨pyParseInt_nonneg _ t.hunters hm5 hpa,
         pyParseInt_nonneg _ t.ducks hm4 hpb⟩

theorem parse_page1_summary_nonneg (text : String)
    (hE : blockCountFieldsOk (searchSpan "EASTSIDE HUNTERS" "EASTSIDE TOTALS" text))
    (hW : blockCountFieldsOk (searchSpan "WESTSIDE HUNTERS" "WESTSIDE TOTALS" text)) :
    ∀ t ∈ parse_page1_summary text, 0 ≤ t.hunters ∧ 0 ≤ t.ducks := by
  intro t ht
  unfold parse_page1_summary at ht
  rcases List.mem_append.mp ht with h | h
  · cases he : searchSpan "EASTSIDE HUNTERS" "EASTSIDE TOTALS" text with
    | none =>
      rw [he] at h
      cases h
    | some blk =>
      rw [he] at h
      rw [he] at hE
      exact parseSection_nonneg blk "Eastside" hE t h
  · cases hw : searchSpan "WESTSIDE HUNTERS" "WESTSIDE TOTALS" text with
    | none =>
      rw [hw] at h
      cases h
    | some blk =>
      rw [hw] at h
      rw [hw] at hW
      exact parseSection_nonneg blk "Westside" hW t h

theorem cellToInt_nonneg (c : Cell) (v : Int)
    (hm : ∀ s : String, c = some s → '-' ∉ s.toList) (h : cellToInt c = some v) :
    0 ≤ v := by
  cases c with
  | none => cases h
  | some s =>
    simp only [cellToInt] at h
    by_cases hs : s = ""
    · rw [if_pos hs] at h
      injection h with h2
      subst h2
      decide
    · rw [if_neg hs] at h
      exact pyParseInt_nonneg s v (hm s rfl) h

theorem processRow_nonneg (u : Option String) (row : Row)
    (hm : rowCountCellsOk row)
    (nm : String) (hv dv : Int) (h : (processRow u row).2 = some (nm, hv, dv)) :
    0 ≤ hv ∧ 0 ≤ dv := by
  by_cases hlen : row.length < 6
  · exfalso
    unfold processRow at h
    rw [if_pos hlen] at h
    cases h
  · cases hbc : row.getD 1 none with
    | none =>
      exfalso
      unfold processRow at h
      rw [if_neg hlen, hbc] at h
      cases h
    | some bc =>
      by_cases hB : bc = "Blind"
      · exfalso
        unfold processRow at h
        rw [if_neg hlen, hbc] at h
        simp only [hB, ite_true] at h
        cases h
      · cases hg : stepUnit u (row.getD 0 none) with
        | none =>
          exfalso
          unfold processRow at h
          rw [if_neg hlen, hbc, hg] at h
          simp only [hB, ite_false] at h
          cases h
        | some g =>
          rw [processRow_eq u row bc g hlen hbc hB hg] at h
          have hm2 : ∀ s : String, row.getD 2 none = some s → '-' ∉ s.toList :=
            cellNoMinus_spec hm.1
          have hm3 : ∀ s : String, row.getD 3 none = some s → '-' ∉ s.toList :=
            cellNoMinus_spec hm.2
          cases h2 : cellToInt (row.getD 2 none) with
          | none =>
            rw [h2] at h
            cases h3 : cellToInt (row.getD 3 none) with
            | none => rw [h3] at h; cases h
            | some b => rw [h3] at h; cases h
          | some a =>
            cases h3 : cellToInt (row.getD 3 none) with
            | none =>
              rw [h2, h3] at h
              cases h
            | some b =>
              rw [h2, h3] at h
              simp only [Option.some.injEq, Prod.mk.injEq] at h
              obtain ⟨_, ha, hb⟩ := h
              subst ha
              subst hb
              exact ⟨cellToInt_nonneg _ _ hm2 h2, cellToInt_nonneg _ _ hm3 h3⟩

theorem processRows_nonneg (rows : List Row) :
    ∀ u : Option String,
    (∀ row ∈ rows, rowCountCellsOk row) →
    ∀ out ∈ (processRows u rows).2, 0 ≤ out.2.1 ∧ 0 ≤ out.2.2 := by
  induction rows with
  | nil =>
    intro u _ out hout
    cases hout
  | cons r rs ih =>
    intro u hm out hout
    unfold processRows at hout
    simp only [] at hout
    rcases List.mem_append.mp hout with h | h
    · have hsome : (processRow u r).2 = some out := by
        cases hp : (processRow u r).2 with
        | none => rw [hp] at h; cases h
        | some o =>
          rw [hp] at h
          simp only [Option.toList, List.mem_singleton] at h
          subst h
          rfl
      exact processRow_nonneg u r (hm r (by simp)) out.1 out.2.1 out.2.2 hsome
    · exact ih (processRow u r).1 (fun row hr => hm row (by simp [hr])) out h

theorem processTables_nonneg (ts : List Table) :
    ∀ u : Option String,
    (∀ tbl ∈ ts, ∀ row ∈ tbl, rowCountCellsOk row) →
    ∀ out ∈ (processTables u ts).2, 0 ≤ out.2.1 ∧ 0 ≤ out.2.2 := by
  induction ts with
  | nil =>
    intro u _ out hout
    cases hout
  | cons t rest ih =>
    intro u hm out hout
    unfold processTables at hout
    simp only [] at hout
    rcases List.mem_append.mp hout with h | h
    · exact processRows_nonneg t u (hm t (by simp)) out h
    · exact ih (processRows u t).1 (fun tbl ht => hm tbl (by simp [ht])) out h

/-- Counterexample for C9 as stated: a document whose summary line reads
`"North Pond -12 34 5 6 2.83"` produces a tuple with a negative hunter
count — Python's `int()` accepts a sign, so extraction does not guarantee
non-negative counts for every input. -/
theorem c9_negative_counterexample :
    parse_one_pdf docNeg = [⟨"Eastside", "North Pond", -12, 34⟩] ∧
    (⟨"Eastside", "North Pond", -12, 34⟩ : HarvestTuple).hunters < 0 := by
  constructor <;> decide

/-- Claim C9 (corrected): extracted counts are integers, not necessarily
non-negative; they are non-negative whenever the document's count fields —
the 5th-from-last and 4th-from-last tokens of the summary-region lines the
parser reads, and the 3rd and 4th cells of the detail-table rows — contain
no minus sign. All other content (names, headers, dates) may contain
`'-'`. -/
theorem c9_nonneg_amended (d : PdfDoc) (hm : countFieldsNoMinus d) :
    ∀ t ∈ parse_one_pdf d, 0 ≤ t.hunters ∧ 0 ≤ t.ducks := by
  obtain ⟨hE, hW, hcells⟩ := hm
  intro t ht
  unfold parse_one_pdf at ht
  rcases List.mem_append.mp ht with h | h
  · exact parse_page1_summary_nonneg d.page1 hE hW t h
  · unfold parse_detail_tables at h
    rcases List.mem_append.mp h with hd | hd
    · obtain ⟨out, hout, rfl⟩ := List.mem_map.mp hd
      have := processTables_nonneg d.page2Tables none
        (fun tbl ht => hcells tbl (List.mem_append.mpr (Or.inl ht))) out hout
      exact this
    · obtain ⟨out, hout, rfl⟩ := List.mem_map.mp hd
      have := processTables_nonneg d.page3Tables none
        (fun tbl ht => hcells tbl (List.mem_append.mpr (Or.inr ht))) out hout
      exact this

/-- A document whose blind name and derived columns contain minus signs and
hyphens while the two count fields do not. -/
def docHyphen : PdfDoc :=
  ⟨"EASTSIDE HUNTERS\nCane-Break 2025-26 12 34 5 -6 -2.83\nEASTSIDE TOTALS", [], []⟩

/-- Witness for C9 (amended) on a document that contains hyphens in its
header line, in the blind name, and in non-count columns — only the two
count fields are minus-free, and the extracted counts are non-negative. -/
theorem c9_nonneg_amended_witness :
    0 ≤ (⟨"Eastside", "Cane-Break 2025-26", 12, 34⟩ : HarvestTuple).hunters ∧
    0 ≤ (⟨"Eastside", "Cane-Break 2025-26", 12, 34⟩ : HarvestTuple).ducks :=
  c9_nonneg_amended docHyphen (by decide)
    ⟨"Eastside", "Cane-Break 2025-26", 12, 34⟩ (by decide)

theorem charListLt_irrefl : ∀ l : List Char, charListLt l l = false := by
  intro l
  induction l with
  | nil => rfl
  | cons a as ih => simp [charListLt, ih]

theorem charListLt_asymm : ∀ a b : List Char,
    charListLt a b = true → charListLt b a = false := by
  intro a
  induction a with
  | nil =>
    intro b h
    cases b with
    | nil => cases h
    | cons c cs => rfl
  | cons x xs ih =>
    intro b h
    cases b with
    | nil => cases h
    | cons y ys =>
      simp only [charListLt] at h ⊢
      by_cases h1 : x.toNat < y.toNat
      · rw [if_neg (by omega : ¬ y.toNat < x.toNat), if_pos h1]
      · rw [if_neg h1] at h
        by_cases h2 : y.toNat < x.toNat
        · rw [if_pos h2] at h
          cases h
        · rw [if_neg h2] at h
          rw [if_neg h2, if_neg h1]
          exact ih ys h

theorem charListLt_trans : ∀ a b c : List Char,
    charListLt a b = true → charListLt b c = true → charListLt a c = true := by
  intro a
  induction a with
  | nil =>
    intro b c hab hbc
    cases b with
    | nil => cases hab
    | cons y ys =>
      cases c with
      | nil => cases hbc
      | cons z zs => rfl
  | cons x xs ih =>
    intro b c hab hbc
    cases b with
    | nil => cases hab
    | cons y ys =>
      cases c with
      | nil => cases hbc
      | cons z zs =>
        simp only [charListLt] at hab hbc ⊢
        by_cases hxy : x.toNat < y.toNat <;> by_cases hyz : y.toNat < z.toNat
        · rw [if_pos (by omega)]
        · rw [if_neg hyz] at hbc
          by_cases hzy : z.toNat < y.toNat
          · rw [if_pos hzy] at hbc
            cases hbc
          · rw [if_pos (by omega)]
        · rw [if_neg hxy] at hab
          by_cases hyx : y.toNat < x.toNat
          · rw [if_pos hyx] at hab
            cases hab
          · rw [if_pos (by omega)]
        · rw [if_neg hxy] at hab
          rw [if_neg hyz] at hbc
          by_cases hyx : y.toNat < x.toNat
          · rw [if_pos hyx] at hab
            cases hab
          · by_cases hzy : z.toNat < y.toNat
            · rw [if_pos hzy] at hbc
              cases hbc
            · rw [if_neg hyx] at hab
              rw [if_neg hzy] at hbc
              rw [if_neg (by omega), if_neg (by omega)]
              exact ih ys zs hab hbc

theorem char_toNat_inj {c d : Char} (h : c.toNat = d.toNat) : c = d :=
  Char.ext (UInt32.toNat.inj h)

theorem charListLt_conn : ∀ a b : List Char,
    charListLt a b = false → charListLt b a = false → a = b := by
  intro a
  induction a with
  | nil =>
    intro b hab _
    cases b with
    | nil => rfl
    | cons y ys => cases hab
  | cons x xs ih =>
    intro b hab hba
    cases b with
    | nil => cases hba
    | cons y ys =>
      simp only [charListLt] at hab hba
      by_cases hxy : x.toNat < y.toNat
      · rw [if_pos hxy] at hab
        cases hab
      · by_cases hyx : y.toNat < x.toNat
        · rw [if_pos hyx] at hba
          cases hba
        · rw [if_neg hxy, if_neg hyx] at hab
          rw [if_neg hyx, if_neg hxy] at hba
          have hc : x = y := char_toNat_inj (by omega)
          rw [hc, ih ys hab hba]

theorem strLtB_asymm (a b : String) (h : strLtB a b = true) : strLtB b a = false :=
  charListLt_asymm _ _ h

theorem strLtB_trans (a b c : String) (h1 : strLtB a b = true) (h2 : strLtB b c = true) :
    strLtB a c = true :=
  charListLt_trans _ _ _ h1 h2

theorem strLtB_conn (a b : String) (h1 : strLtB a b = false) (h2 : strLtB b a = false) :
    a = b := by
  apply String.ext
  exact charListLt_conn _ _ h1 h2

theorem keyGtB_iff (a b : OutRec) :
    keyGtB a b = true ↔
      (b.ducksPerHunter < a.ducksPerHunter ∨
       (a.ducksPerHunter = b.ducksPerHunter ∧ strLtB b.blind a.blind = true)) := by
  simp [keyGtB, Bool.or_eq_true, Bool.and_eq_true, decide_eq_true_eq]

theorem keyGtB_asymm (a b : OutRec) (h : keyGtB a b = true) : keyGtB b a = false := by
  rw [keyGtB_iff] at h
  apply Bool.eq_false_iff.mpr
  rw [Ne, keyGtB_iff]
  intro hcontra
  rcases h with h1 | ⟨he, hs⟩ <;> rcases hcontra with h1' | ⟨he', hs'⟩
  · exact absurd h1' (lt_asymm h1)
  · rw [he'] at h1
    exact absurd h1 (lt_irrefl _)
  · rw [he] at h1'
    exact absurd h1' (lt_irrefl _)
  · rw [strLtB_asymm _ _ hs] at hs'
    cases hs'

theorem keyGtB_trans (a b c : OutRec) (h1 : keyGtB a b = true) (h2 : keyGtB b c = true) :
    keyGtB a c = true := by
  rw [keyGtB_iff] at h1 h2 ⊢
  rcases h1 with hx | ⟨he, hs⟩ <;> rcases h2 with hx' | ⟨he', hs'⟩
  · exact Or.inl (lt_trans hx' hx)
  · rw [he'] at hx
    exact Or.inl hx
  · rw [← he] at hx'
    exact Or.inl hx'
  · exact Or.inr ⟨he.trans he', strLtB_trans _ _ _ hs' hs⟩

/-- `a` may legitimately come before `b` in the descending sort. -/
def RankGe (a b : OutRec) : Prop := keyGtB b a = false

/-- Strict descending order on the amended sort key: greater efficiency, or
equal efficiency and lexicographically greater name. -/
def RankStrict (a b : OutRec) : Prop :=
  b.ducksPerHunter < a.ducksPerHunter ∨
  (a.ducksPerHunter = b.ducksPerHunter ∧ strLtB b.blind a.blind = true)

/-- The order C1 claims for the sorted output: strictly greater efficiency,
or equal efficiency and lexicographically smaller name earlier. -/
def ClaimOrder (l : List OutRec) : Prop :=
  l.Pairwise (fun a b =>
    b.ducksPerHunter < a.ducksPerHunter ∨
    (a.ducksPerHunter = b.ducksPerHunter ∧ strLtB a.blind b.blind = true))

theorem rankStrict_asymm (a b : OutRec) (h : RankStrict a b) : ¬ RankStrict b a := by
  intro h'
  rcases h with h1 | ⟨he, hs⟩ <;> rcases h' with h1' | ⟨he', hs'⟩
  · exact absurd h1' (lt_asymm h1)
  · rw [he'] at h1
    exact absurd h1 (lt_irrefl _)
  · rw [he] at h1'
    exact absurd h1' (lt_irrefl _)
  · rw [strLtB_asymm _ _ hs] at hs'
    cases hs'

theorem mem_insertDesc (a x : OutRec) : ∀ l : List OutRec,
    x ∈ insertDesc a l ↔ x = a ∨ x ∈ l := by
  intro l
  induction l with
  | nil => simp [insertDesc]
  | cons b t ih =>
    simp only [insertDesc]
    by_cases hab : keyGtB a b = true
    · rw [if_pos hab]
      simp [or_comm, or_assoc, or_left_comm]
    · rw [if_neg hab]
      simp only [List.mem_cons, ih]
      tauto

theorem pairwise_insertDesc (a : OutRec) : ∀ l : List OutRec,
    l.Pairwise RankGe → (insertDesc a l).Pairwise RankGe := by
  intro l
  induction l with
  | nil =>
    intro _
    simp [insertDesc]
  | cons b t ih =>
    intro hp
    rw [List.pairwise_cons] at hp
    obtain ⟨hb, ht⟩ := hp
    simp only [insertDesc]
    by_cases hab : keyGtB a b = true
    · rw [if_pos hab]
      rw [List.pairwise_cons]
      refine ⟨?_, List.pairwise_cons.mpr ⟨hb, ht⟩⟩
      intro y hy
      rcases List.mem_cons.mp hy with h1 | h1
      · subst h1
        exact keyGtB_asymm a y hab
      · show keyGtB y a = false
        apply Bool.eq_false_iff.mpr
        intro hya
        have := keyGtB_trans y a b hya hab
        rw [hb y h1] at this
        cases this
    · rw [if_neg hab]
      rw [List.pairwise_cons]
      refine ⟨?_, ih ht⟩
      intro z hz
      rcases (mem_insertDesc a z t).mp hz with h1 | h1
      · subst h1
        exact Bool.eq_false_iff.mpr hab
      · exact hb z h1

theorem pySortDesc_pairwise_aux (l : List OutRec) :
    ∀ acc : List OutRec, acc.Pairwise RankGe →
      (l.foldl (fun acc x => insertDesc x acc) acc).Pairwise RankGe := by
  induction l with
  | nil => exact fun acc h => h
  | cons x l ih =>
    intro acc hacc
    exact ih (insertDesc x acc) (pairwise_insertDesc x acc hacc)

theorem pySortDesc_pairwise (l : List OutRec) : (pySortDesc l).Pairwise RankGe :=
  pySortDesc_pairwise_aux l [] (List.Pairwise.nil)

theorem insertDesc_perm (a : OutRec) : ∀ l : List OutRec,
    (insertDesc a l).Perm (a :: l) := by
  intro l
  induction l with
  | nil => exact List.Perm.refl _
  | cons b t ih =>
    simp only [insertDesc]
    by_cases hab : keyGtB a b = true
    · rw [if_pos hab]
    · rw [if_neg hab]
      exact (ih.cons b).trans (List.Perm.swap a b t)

theorem pySortDesc_perm_aux (l : List OutRec) :
    ∀ acc : List OutRec, (l.foldl (fun acc x => insertDesc x acc) acc).Perm (l ++ acc) := by
  induction l with
  | nil => exact fun acc => List.Perm.refl _
  | cons x l ih =>
    intro acc
    have h1 := ih (insertDesc x acc)
    have h2 : (l ++ insertDesc x acc).Perm (l ++ (x :: acc)) :=
      (insertDesc_perm x acc).append_left l
    have h3 : (l ++ (x :: acc)).Perm (x :: (l ++ acc)) := List.perm_middle
    exact (h1.trans h2).trans h3

theorem pySortDesc_perm (l : List OutRec) : (pySortDesc l).Perm l := by
  have h := pySortDesc_perm_aux l []
  rw [List.append_nil] at h
  exact h

theorem rankGe_strict (a b : OutRec) (hge : RankGe a b) (hne : ¬ a.blind = b.blind) :
    RankStrict a b := by
  have hge' : ¬ (keyGtB b a = true) := by
    rw [hge]
    simp
  rw [keyGtB_iff] at hge'
  push_neg at hge'
  obtain ⟨hnlt, himp⟩ := hge'
  rcases lt_or_eq_of_le hnlt with h1 | h1
  · exact Or.inl h1
  · have hs := himp h1
    have hs2 : strLtB a.blind b.blind = false := Bool.eq_false_iff.mpr hs
    by_cases hba : strLtB b.blind a.blind = true
    · exact Or.inr ⟨h1.symm, hba⟩
    · have := strLtB_conn a.blind b.blind hs2 (Bool.eq_false_iff.mpr hba)
      exact absurd this hne

theorem pySortDesc_strict (l : List OutRec) (hnodup : (l.map OutRec.blind).Nodup) :
    (pySortDesc l).Pairwise RankStrict := by
  have hp := pySortDesc_pairwise l
  have hperm := pySortDesc_perm l
  have hnames : l.Pairwise (fun a b => a.blind ≠ b.blind) := by
    rw [List.Nodup, List.pairwise_map] at hnodup
    exact hnodup
  have hnames2 : (pySortDesc l).Pairwise (fun a b => a.blind ≠ b.blind) :=
    (hperm.pairwise_iff (fun h => Ne.symm h)).mpr hnames
  have hand := hp.and hnames2
  exact hand.imp (fun h => rankGe_strict _ _ h.1 h.2)

theorem pySortDesc_eq_of_perm (l l' : List OutRec) (h : l.Perm l')
    (hnodup : (l.map OutRec.blind).Nodup) : pySortDesc l' = pySortDesc l := by
  haveI : IsAntisymm OutRec RankStrict :=
    ⟨fun a b hab hba => absurd hba (rankStrict_asymm a b hab)⟩
  have hnodup' : (l'.map OutRec.blind).Nodup := ((h.map OutRec.blind).nodup_iff).mp hnodup
  have h1 := pySortDesc_strict l hnodup
  have h2 := pySortDesc_strict l' hnodup'
  have hp : (pySortDesc l').Perm (pySortDesc l) :=
    (pySortDesc_perm l').trans (h.symm.trans (pySortDesc_perm l).symm)
  exact List.eq_of_perm_of_sorted hp h2 h1

/-- Claim C1 (corrected): each partition of a side's records is sorted so
that an earlier record has strictly greater (rounded) efficiency, or equal
efficiency and a lexicographically *greater* name — `reverse=True` applies
to the whole `(ducksPerHunter, blind)` key, so the name tie-break is
descending, not ascending as claimed — and, names being distinct, the
output is identical for every permutation of the input records. -/
theorem c1_ranker_amended (rs : List OutRec) (hnodup : (rs.map OutRec.blind).Nodup) :
    ((rankSide rs).1.Pairwise RankStrict ∧ (rankSide rs).2.Pairwise RankStrict) ∧
    ∀ rs' : List OutRec, rs.Perm rs' → rankSide rs' = rankSide rs := by
  have hnodupf : ∀ p : OutRec → Bool, ((rs.filter p).map OutRec.blind).Nodup :=
    fun p => ((List.filter_sublist rs).map OutRec.blind).nodup hnodup
  constructor
  · exact ⟨pySortDesc_strict _ (hnodupf _), pySortDesc_strict _ (hnodupf _)⟩
  · intro rs' hperm
    unfold rankSide
    have e1 := pySortDesc_eq_of_perm _ _ (hperm.filter (fun r => is_summary r)) (hnodupf _)
    have e2 := pySortDesc_eq_of_perm _ _ (hperm.filter (fun r => !(is_summary r))) (hnodupf _)
    rw [e1, e2]

/-- Records with equal efficiency and names `"A"`, `"B"`. -/
def recA : OutRec := ⟨"A", 1, 1, 1, []⟩

/-- See `recA`. -/
def recB : OutRec := ⟨"B", 1, 1, 1, []⟩

/-- Counterexample for C1 as stated: on two records of equal efficiency the
code places the lexicographically greater name first (`reverse=True` also
reverses the name key), so the claimed ascending tie-break fails. -/
theorem c1_tie_break_counterexample :
    pySortDesc [recA, recB] = [recB, recA] ∧
    recA.ducksPerHunter = recB.ducksPerHunter ∧
    strLtB recA.blind recB.blind = true ∧
    ¬ ClaimOrder (pySortDesc [recA, recB]) := by
  have hsort : pySortDesc [recA, recB] = [recB, recA] := by decide
  refine ⟨hsort, rfl, by decide, ?_⟩
  rw [hsort]
  intro hclaim
  have hR := List.rel_of_pairwise_cons hclaim (List.mem_singleton_self recA)
  rcases hR with hlt | ⟨_, hlt2⟩
  · exact absurd hlt (lt_irrefl _)
  · exact absurd hlt2 (by decide)

/-- Witness for C1 (amended) on the two-record tie. -/
theorem c1_ranker_amended_witness :
    ((rankSide [recA, recB]).1.Pairwise RankStrict ∧
     (rankSide [recA, recB]).2.Pairwise RankStrict) ∧
    rankSide [recB, recA] = rankSide [recA, recB] := by
  have h := c1_ranker_amended [recA, recB] (by decide)
  exact ⟨h.1, h.2 [recB, recA] (by decide)⟩

theorem alookup_aupd {κ α : Type} [DecidableEq κ] (l : List (κ × α)) (k : κ)
    (f : α → α) (d : α) (k' : κ) :
    alookup (aupd l k f d) k' =
      if k' = k then some (f ((alookup l k).getD d)) else alookup l k' := by
  induction l with
  | nil =>
    show (if k = k' then some (f d) else none) = _
    by_cases hk : k' = k
    · rw [if_pos hk.symm, if_pos hk]
      rfl
    · rw [if_neg (fun h => hk h.symm), if_neg hk]
      rfl
  | cons p l ih =>
    by_cases hp : p.1 = k
    · show alookup (if p.1 = k then (p.1, f p.2) :: l else p :: aupd l k f d) k' = _
      rw [if_pos hp]
      show (if p.1 = k' then some (f p.2) else alookup l k') = _
      by_cases hk : k' = k
      · rw [if_pos (show p.1 = k' by rw [hp, hk]), if_pos hk]
        show some (f p.2) = some (f ((if p.1 = k then some p.2 else alookup l k).getD d))
        rw [if_pos hp]
        rfl
      · have hp' : ¬ p.1 = k' := by
          rw [hp]
          exact fun h => hk h.symm
        rw [if_neg hp', if_neg hk]
        show alookup l k' = (if p.1 = k' then some p.2 else alookup l k')
        rw [if_neg hp']
    · show alookup (if p.1 = k then (p.1, f p.2) :: l else p :: aupd l k f d) k' = _
      rw [if_neg hp]
      show (if p.1 = k' then some p.2 else alookup (aupd l k f d) k') = _
      by_cases hpk : p.1 = k'
      · have hk : ¬ k' = k := fun h => hp (by rw [hpk, h])
        rw [if_pos hpk, if_neg hk]
        show some p.2 = (if p.1 = k' then some p.2 else alookup l k')
        rw [if_pos hpk]
      · rw [if_neg hpk, ih]
        by_cases hk : k' = k
        · rw [if_pos hk, if_pos hk]
          show some (f ((alookup l k).getD d)) =
            some (f ((if p.1 = k then some p.2 else alookup l k).getD d))
          rw [if_neg hp]
        · rw [if_neg hk, if_neg hk]
          show alookup l k' = (if p.1 = k' then some p.2 else alookup l k')
          rw [if_neg hpk]

/-- The contributions filed under key `k`. -/
def contribsFor (k : EntityKey) (L : List Contrib) : List Contrib :=
  L.filter (fun c => decide (keyOf c = k))

/-- Fold a list of contributions into one record. -/
def recOf (r : AggRec) (cs : List Contrib) : AggRec :=
  cs.foldl (fun r c => bumpC c r) r

/-- Characterisation of the aggregation fold, one key at a time: the record
at `k` is the base record (or a fresh one) with `k`'s contributions folded
in, and is absent exactly when there are none. -/
theorem alookup_aggFold (L : List Contrib) :
    ∀ (s : AggState) (k : EntityKey),
      alookup (L.foldl aggStep s) k =
        (if contribsFor k L = [] then alookup s k
         else some (recOf ((alookup s k).getD emptyAgg) (contribsFor k L))) := by
  induction L with
  | nil =>
    intro s k
    simp [contribsFor]
  | cons c L ih =>
    intro s k
    rw [List.foldl_cons, ih (aggStep s c) k]
    by_cases hkey : keyOf c = k
    · have hcf : contribsFor k (c :: L) = c :: contribsFor k L := by
        simp [contribsFor, List.filter_cons, hkey]
      have hstep : alookup (aggStep s c) k = some (bumpC c ((alookup s k).getD emptyAgg)) := by
        unfold aggStep
        rw [alookup_aupd, hkey, if_pos rfl]
      rw [hcf]
      by_cases hcs : contribsFor k L = []
      · rw [if_pos hcs, hstep, if_neg (by simp), hcs]
        rfl
      · rw [if_neg hcs, if_neg (by simp), hstep]
        rfl
    · have hcf : contribsFor k (c :: L) = contribsFor k L := by
        simp [contribsFor, List.filter_cons, hkey]
      have hstep : alookup (aggStep s c) k = alookup s k := by
        unfold aggStep
        rw [alookup_aupd, if_neg (fun h => hkey h.symm)]
      rw [hcf, hstep]

theorem recOf_totH (cs : List Contrib) :
    ∀ r : AggRec, (recOf r cs).totHunters =
      r.totHunters + (cs.map (fun c => c.2.hunters)).sum := by
  induction cs with
  | nil =>
    intro r
    simp [recOf]
  | cons c cs ih =>
    intro r
    show (recOf (bumpC c r) cs).totHunters = _
    rw [ih (bumpC c r)]
    show (r.totHunters + c.2.hunters) + _ = _
    simp only [List.map_cons, List.sum_cons]
    ring

theorem recOf_totD (cs : List Contrib) :
    ∀ r : AggRec, (recOf r cs).totDucks =
      r.totDucks + (cs.map (fun c => c.2.ducks)).sum := by
  induction cs with
  | nil =>
    intro r
    simp [recOf]
  | cons c cs ih =>
    intro r
    show (recOf (bumpC c r) cs).totDucks = _
    rw [ih (bumpC c r)]
    show (r.totDucks + c.2.ducks) + _ = _
    simp only [List.map_cons, List.sum_cons]
    ring

/-- The contributions of `cs` dated `dt`. -/
def dayContribsFor (dt : String) (cs : List Contrib) : List Contrib :=
  cs.filter (fun c => decide (c.1 = dt))

/-- Characterisation of `recOf` on daily buckets, one date at a time. -/
theorem recOf_daily (cs : List Contrib) :
    ∀ (r : AggRec) (dt : String),
      alookup (recOf r cs).daily dt =
        (if dayContribsFor dt cs = [] then alookup r.daily dt
         else some ⟨((alookup r.daily dt).getD ⟨0, 0⟩).hunters +
                      ((dayContribsFor dt cs).map (fun c => c.2.hunters)).sum,
                    ((alookup r.daily dt).getD ⟨0, 0⟩).ducks +
                      ((dayContribsFor dt cs).map (fun c => c.2.ducks)).sum⟩) := by
  induction cs with
  | nil =>
    intro r dt
    simp [dayContribsFor, recOf]
  | cons c cs ih =>
    intro r dt
    have hstep : alookup (bumpC c r).daily dt =
        if dt = c.1 then some (bumpDay c.2.hunters c.2.ducks ((alookup r.daily c.1).getD ⟨0, 0⟩))
        else alookup r.daily dt := by
      show alookup (aupd r.daily c.1 (bumpDay c.2.hunters c.2.ducks) ⟨0, 0⟩) dt = _
      rw [alookup_aupd]
    show alookup (recOf (bumpC c r) cs).daily dt = _
    rw [ih (bumpC c r) dt]
    by_cases hdt : c.1 = dt
    · have hcf : dayContribsFor dt (c :: cs) = c :: dayContribsFor dt cs := by
        simp [dayContribsFor, List.filter_cons, hdt]
      rw [hcf, hstep, if_pos hdt.symm, hdt]
      by_cases hcs : dayContribsFor dt cs = []
      · rw [if_pos hcs, if_neg (by simp), hcs]
        simp [bumpDay]
      · rw [if_neg hcs, if_neg (by simp)]
        simp only [Option.getD_some, List.map_cons, List.sum_cons, bumpDay]
        congr 1
        show DayTotals.mk _ _ = DayTotals.mk _ _
        congr 1 <;> ring
    · have hcf : dayContribsFor dt (c :: cs) = dayContribsFor dt cs := by
        simp [dayContribsFor, List.filter_cons, hdt]
      rw [hcf, hstep, if_neg (show ¬ dt = c.1 from fun h => hdt h.symm)]

theorem recEquiv_refl (a : AggRec) : recEquiv a a := ⟨rfl, rfl, fun _ => rfl⟩

theorem recEquiv_symm {a b : AggRec} (h : recEquiv a b) : recEquiv b a :=
  ⟨h.1.symm, h.2.1.symm, fun dt => (h.2.2 dt).symm⟩

theorem recEquiv_trans {a b c : AggRec} (h1 : recEquiv a b) (h2 : recEquiv b c) :
    recEquiv a c :=
  ⟨h1.1.trans h2.1, h1.2.1.trans h2.2.1, fun dt => (h1.2.2 dt).trans (h2.2.2 dt)⟩

theorem optRecEquiv_refl (o : Option AggRec) : optRecEquiv o o := by
  cases o with
  | none => trivial
  | some a => exact recEquiv_refl a

theorem optRecEquiv_symm {o p : Option AggRec} (h : optRecEquiv o p) : optRecEquiv p o := by
  cases o <;> cases p <;> first | trivial | exact recEquiv_symm h

theorem optRecEquiv_trans {o p q : Option AggRec} (h1 : optRecEquiv o p)
    (h2 : optRecEquiv p q) : optRecEquiv o q := by
  cases o <;> cases p <;> cases q <;>
    first | trivial | exact h1 | exact h2 | exact recEquiv_trans h1 h2

theorem stateEquiv_refl (s : AggState) : stateEquiv s s := fun _ => optRecEquiv_refl _

theorem stateEquiv_symm {s t : AggState} (h : stateEquiv s t) : stateEquiv t s :=
  fun k => optRecEquiv_symm (h k)

theorem stateEquiv_trans {s t u : AggState} (h1 : stateEquiv s t) (h2 : stateEquiv t u) :
    stateEquiv s u :=
  fun k => optRecEquiv_trans (h1 k) (h2 k)

theorem alookup_map_val {κ α β : Type} [DecidableEq κ] (s : List (κ × α))
    (g : κ → α → β) (k : κ) :
    alookup (s.map (fun p => (p.1, g p.1 p.2))) k = (alookup s k).map (g k) := by
  induction s with
  | nil => rfl
  | cons p l ih =>
    show (if p.1 = k then some (g p.1 p.2) else _) = _
    by_cases hp : p.1 = k
    · rw [if_pos hp]
      show _ = (if p.1 = k then some p.2 else alookup l k).map (g k)
      rw [if_pos hp, hp]
      rfl
    · rw [if_neg hp, ih]
      show _ = (if p.1 = k then some p.2 else alookup l k).map (g k)
      rw [if_neg hp]

theorem alookup_filter_keep {κ α : Type} [DecidableEq κ] (t : List (κ × α))
    (pr : κ × α → Bool) (k : κ) (h : ∀ a : α, pr (k, a) = true) :
    alookup (t.filter pr) k = alookup t k := by
  induction t with
  | nil => rfl
  | cons p l ih =>
    obtain ⟨pk, pv⟩ := p
    rw [List.filter_cons]
    by_cases hk : pk = k
    · subst hk
      rw [if_pos (h pv)]
      show (if pk = pk then some pv else alookup (l.filter pr) pk) =
        (if pk = pk then some pv else alookup l pk)
      rw [if_pos rfl, if_pos rfl]
    · cases hp : pr (pk, pv) with
      | true =>
        rw [if_pos rfl]
        show (if pk = k then some pv else alookup (l.filter pr) k) = _
        rw [if_neg hk, ih]
        show _ = (if pk = k then some pv else alookup l k)
        rw [if_neg hk]
      | false =>
        rw [if_neg Bool.false_ne_true, ih]
        show _ = (if pk = k then some pv else alookup l k)
        rw [if_neg hk]

theorem alookup_filter_drop {κ α : Type} [DecidableEq κ] (t : List (κ × α))
    (pr : κ × α → Bool) (k : κ) (h : ∀ a : α, pr (k, a) = false) :
    alookup (t.filter pr) k = none := by
  induction t with
  | nil => rfl
  | cons p l ih =>
    obtain ⟨pk, pv⟩ := p
    rw [List.filter_cons]
    by_cases hk : pk = k
    · subst hk
      rw [if_neg (by rw [h pv]; exact Bool.false_ne_true)]
      exact ih
    · cases hp : pr (pk, pv) with
      | true =>
        rw [if_pos rfl]
        show (if pk = k then some pv else alookup (l.filter pr) k) = none
        rw [if_neg hk]
        exact ih
      | false =>
        rw [if_neg Bool.false_ne_true]
        exact ih

theorem alookup_append {κ α : Type} [DecidableEq κ] (A B : List (κ × α)) (k : κ) :
    alookup (A ++ B) k =
      match alookup A k with
      | some v => some v
      | none => alookup B k := by
  induction A with
  | nil => rfl
  | cons p l ih =>
    show (if p.1 = k then some p.2 else alookup (l ++ B) k) = _
    by_cases hp : p.1 = k
    · rw [if_pos hp]
      show _ = (match (if p.1 = k then some p.2 else alookup l k) with
        | some v => some v
        | none => alookup B k)
      rw [if_pos hp]
    · rw [if_neg hp, ih]
      show _ = (match (if p.1 = k then some p.2 else alookup l k) with
        | some v => some v
        | none => alookup B k)
      rw [if_neg hp]

theorem alookup_amerge {κ α : Type} [DecidableEq κ] (comb : α → α → α)
    (s t : List (κ × α)) (k : κ) :
    alookup (amerge comb s t) k =
      match alookup s k, alookup t k with
      | some a, some b => some (comb a b)
      | some a, none => some a
      | none, o => o := by
  unfold amerge
  rw [alookup_append]
  have hmap := alookup_map_val s
    (fun k' v => match alookup t k' with | some w => comb v w | none => v) k
  simp only [] at hmap
  rw [hmap]
  cases hs : alookup s k with
  | none =>
    simp only [Option.map_none']
    rw [alookup_filter_keep t _ k (fun a => by rw [hs]; rfl)]
  | some a =>
    simp only [Option.map_some']
    cases alookup t k <;> rfl

theorem recOf_perm (cs cs' : List Contrib) (h : cs.Perm cs') (r : AggRec) :
    recEquiv (recOf r cs) (recOf r cs') := by
  refine ⟨?_, ?_, ?_⟩
  · rw [recOf_totH, recOf_totH, (h.map (fun c => c.2.hunters)).sum_eq]
  · rw [recOf_totD, recOf_totD, (h.map (fun c => c.2.ducks)).sum_eq]
  · intro dt
    rw [recOf_daily, recOf_daily]
    have hd : (dayContribsFor dt cs).Perm (dayContribsFor dt cs') := h.filter _
    by_cases he : dayContribsFor dt cs = []
    · have he' : dayContribsFor dt cs' = [] := by
        have h0 := hd.symm
        rw [he] at h0
        exact h0.eq_nil
      rw [if_pos he, if_pos he']
    · have he' : ¬ dayContribsFor dt cs' = [] := by
        intro h0
        rw [h0] at hd
        exact he hd.eq_nil
      rw [if_neg he, if_neg he',
        (hd.map (fun c => c.2.hunters)).sum_eq, (hd.map (fun c => c.2.ducks)).sum_eq]

/-- Aggregation is invariant, as a mapping, under permutation of the dated
contributions. -/
theorem aggregate_perm (L L' : List Contrib) (h : L.Perm L') :
    stateEquiv (aggregate L) (aggregate L') := by
  intro k
  show optRecEquiv (alookup (L.foldl aggStep []) k) (alookup (L'.foldl aggStep []) k)
  rw [alookup_aggFold L [] k, alookup_aggFold L' [] k]
  have hcf : (contribsFor k L).Perm (contribsFor k L') := h.filter _
  by_cases hA : contribsFor k L = []
  · have hB : contribsFor k L' = [] := by
      have h0 := hcf.symm
      rw [hA] at h0
      exact h0.eq_nil
    rw [if_pos hA, if_pos hB]
    exact optRecEquiv_refl _
  · have hB : ¬ contribsFor k L' = [] := by
      intro h0
      rw [h0] at hcf
      exact hA hcf.eq_nil
    rw [if_neg hA, if_neg hB]
    exact recOf_perm _ _ hcf _

theorem recOf_append_mergeRec (csA csB : List Contrib) :
    recEquiv (recOf emptyAgg (csA ++ csB))
      (mergeRec (recOf emptyAgg csA) (recOf emptyAgg csB)) := by
  have h0h : emptyAgg.totHunters = 0 := rfl
  have h0d : emptyAgg.totDucks = 0 := rfl
  refine ⟨?_, ?_, ?_⟩
  · show _ = (recOf emptyAgg csA).totHunters + (recOf emptyAgg csB).totHunters
    rw [recOf_totH, recOf_totH, recOf_totH, List.map_append, List.sum_append, h0h]
    ring
  · show _ = (recOf emptyAgg csA).totDucks + (recOf emptyAgg csB).totDucks
    rw [recOf_totD, recOf_totD, recOf_totD, List.map_append, List.sum_append, h0d]
    ring
  · intro dt
    show _ = alookup (mergeDaily (recOf emptyAgg csA).daily (recOf emptyAgg csB).daily) dt
    rw [mergeDaily, alookup_amerge, recOf_daily, recOf_daily, recOf_daily]
    have hsplit : dayContribsFor dt (csA ++ csB) =
        dayContribsFor dt csA ++ dayContribsFor dt csB := by
      simp [dayContribsFor, List.filter_append]
    rw [hsplit]
    have hbase : alookup emptyAgg.daily dt = none := rfl
    rw [hbase]
    by_cases hA : dayContribsFor dt csA = [] <;> by_cases hB : dayContribsFor dt csB = []
    · rw [if_pos hA, if_pos hB, if_pos (by rw [hA, hB]; rfl)]
    · rw [if_pos hA, if_neg hB, if_neg (by rw [hA]; simpa using hB), hA]
      simp
    · rw [if_neg hA, if_pos hB, if_neg (by simp [hA, hB]), hB]
      simp
    · rw [if_neg hA, if_neg hB, if_neg (by simp [hA, hB])]
      simp only [Option.getD_none, List.map_append, List.sum_append]
      show some (DayTotals.mk _ _) = some (DayTotals.mk _ _)
      congr 1
      show DayTotals.mk _ _ = DayTotals.mk _ _
      congr 1 <;> ring

/-- Aggregating two batches separately and merging by union-with-sum is the
same mapping as aggregating their concatenation. -/
theorem aggregate_append (A B : List Contrib) :
    stateEquiv (aggregate (A ++ B)) (mergeStates (aggregate A) (aggregate B)) := by
  intro k
  show optRecEquiv (alookup ((A ++ B).foldl aggStep []) k)
    (alookup (mergeStates (A.foldl aggStep []) (B.foldl aggStep [])) k)
  rw [mergeStates, alookup_amerge, alookup_aggFold (A ++ B) [] k,
    alookup_aggFold A [] k, alookup_aggFold B [] k]
  have hsplit : contribsFor k (A ++ B) = contribsFor k A ++ contribsFor k B := by
    simp [contribsFor, List.filter_append]
  rw [hsplit]
  by_cases hA : contribsFor k A = [] <;> by_cases hB : contribsFor k B = []
  · rw [if_pos hA, if_pos hB, if_pos (by rw [hA, hB]; rfl)]
    exact optRecEquiv_refl _
  · rw [if_pos hA, if_neg hB, if_neg (by rw [hA]; simpa using hB), hA]
    show optRecEquiv (some _) (some _)
    rw [List.nil_append]
    exact recEquiv_refl _
  · rw [if_neg hA, if_pos hB, if_neg (by simp [hA, hB]), hB]
    show optRecEquiv (some _) (some _)
    rw [List.append_nil]
    exact recEquiv_refl _
  · rw [if_neg hA, if_neg hB, if_neg (by simp [hA, hB])]
    show optRecEquiv (some _) (some _)
    exact recOf_append_mergeRec _ _

theorem mergeRec_congr_right (a : AggRec) {b b' : AggRec} (h : recEquiv b b') :
    recEquiv (mergeRec a b) (mergeRec a b') := by
  refine ⟨?_, ?_, ?_⟩
  · show a.totHunters + b.totHunters = a.totHunters + b'.totHunters
    rw [h.1]
  · show a.totDucks + b.totDucks = a.totDucks + b'.totDucks
    rw [h.2.1]
  · intro dt
    show alookup (mergeDaily a.daily b.daily) dt = alookup (mergeDaily a.daily b'.daily) dt
    rw [mergeDaily, mergeDaily, alookup_amerge, alookup_amerge, h.2.2 dt]

theorem mergeStates_congr_right (s : AggState) {t t' : AggState} (h : stateEquiv t t') :
    stateEquiv (mergeStates s t) (mergeStates s t') := by
  intro k
  rw [mergeStates, mergeStates, alookup_amerge, alookup_amerge]
  have hk := h k
  cases ht : alookup t k with
  | none =>
    cases ht' : alookup t' k with
    | none => cases alookup s k <;> exact optRecEquiv_refl _
    | some b' =>
      rw [ht, ht'] at hk
      cases hk
  | some b =>
    cases ht' : alookup t' k with
    | none =>
      rw [ht, ht'] at hk
      cases hk
    | some b' =>
      rw [ht, ht'] at hk
      cases alookup s k with
      | none => exact hk
      | some a => exact mergeRec_congr_right a hk

/-- Merging the per-batch aggregates of a partition equals aggregating the
flattened contribution list, as a mapping. -/
theorem mergeAll_flatten (P : List (List Contrib)) :
    stateEquiv (mergeAll (P.map aggregate)) (aggregate P.flatten) := by
  induction P with
  | nil => exact stateEquiv_refl _
  | cons A P ih =>
    show stateEquiv (mergeStates (aggregate A) (mergeAll (P.map aggregate))) _
    have h1 : stateEquiv (mergeStates (aggregate A) (mergeAll (P.map aggregate)))
        (mergeStates (aggregate A) (aggregate P.flatten)) :=
      mergeStates_congr_right _ ih
    have h2 : stateEquiv (aggregate (A ++ P.flatten))
        (mergeStates (aggregate A) (aggregate P.flatten)) :=
      aggregate_append A P.flatten
    have h3 : (A :: P).flatten = A ++ P.flatten := rfl
    rw [h3]
    exact stateEquiv_trans h1 (stateEquiv_symm h2)

/-- Claim C4 (confirmed): aggregating a contribution list in any order
yields the same `EntityKey`-to-`AggregateRecord` mapping, and aggregating
an arbitrary partition of it batch by batch and merging the results by
union-with-sum also yields the mapping of the single-batch aggregation. -/
theorem c4_batch_independence :
    (∀ L L' : List Contrib, L.Perm L' → stateEquiv (aggregate L) (aggregate L')) ∧
    (∀ (L : List Contrib) (P : List (List Contrib)), P.flatten.Perm L →
       stateEquiv (mergeAll (P.map aggregate)) (aggregate L)) := by
  refine ⟨aggregate_perm, ?_⟩
  intro L P hperm
  exact stateEquiv_trans (mergeAll_flatten P) (aggregate_perm _ _ hperm)

/-- Witness for C4: two shuffled single-day batches for the same blind,
aggregated separately and merged, match the one-pass aggregation. -/
theorem c4_batch_independence_witness :
    stateEquiv
      (mergeAll ([[("2025-12-02", ⟨"Eastside", "North Pond", 10, 5⟩)],
                  [("2025-12-01", ⟨"Westside", "Oak Island #3", 2, 1⟩)]].map aggregate))
      (aggregate [("2025-12-01", ⟨"Westside", "Oak Island #3", 2, 1⟩),
                  ("2025-12-02", ⟨"Eastside", "North Pond", 10, 5⟩)]) :=
  c4_batch_independence.2 _ _ (by decide)

end Duck
